import Mathlib

/-!
Shallow embedding of the validation core of the SDETAssignment repository:
the price helper (`src/utils/priceHelper.js`, staged as `src/unnamed/part_003`)
and the pure validation logic of the cart page object
(`src/src/pages/CartPage.js`).

Modelling conventions:
* JavaScript numbers are modelled as exact rationals (`ℚ`); every numeric
  constant appearing in the embedded code (`0.1`, `100`, `1000`) is exactly
  representable, so no floating-point rounding is modelled.
* Strings are Lean `String`s; regex character classes become decidable
  character predicates listing the matched code points.
* The page-object methods that read the DOM (`getCartItems`, `getCartTotal`)
  are external inputs: the pure validation methods are embedded as functions
  of the data those reads produce, exactly as the JS bodies use them.
* Human-readable `message`/`violationDetails` fields, which are display-only
  string renderings of the other fields, are not carried in the records.
-/

/-- Characters matched by the JavaScript regex escape `\s` (whitespace),
listed by code point: TAB, LF, VT, FF, CR, SP, NBSP, OGHAM SP, U+2000–U+200A,
LS, PS, NNBSP, MMSP, IDEO SP, BOM. -/
def isJsSpace (c : Char) : Bool :=
  c.toNat = 9 || c.toNat = 10 || c.toNat = 11 || c.toNat = 12 || c.toNat = 13 ||
  c.toNat = 32 || c.toNat = 160 || c.toNat = 5760 ||
  (8192 ≤ c.toNat && c.toNat ≤ 8202) ||
  c.toNat = 8232 || c.toNat = 8233 || c.toNat = 8239 || c.toNat = 8287 ||
  c.toNat = 12288 || c.toNat = 65279

/-- Characters matched by the first replace's class `/[₹Rs.,\s]/gi`:
'₹' (U+20B9 = 8377), 'R' (82), 'r' (114), 'S' (83), 's' (115), '.' (46),
',' (44), and whitespace.  The class is a set of single characters, so the
'.' of the intended literal "Rs." is matched (and removed) on its own. -/
def isCurrencyStripped (c : Char) : Bool :=
  c.toNat = 8377 || c.toNat = 82 || c.toNat = 114 || c.toNat = 83 ||
  c.toNat = 115 || c.toNat = 46 || c.toNat = 44 || isJsSpace c

/-- Characters matched by the regex escape `\d`: ASCII digits '0' (48) to '9' (57). -/
def isDigitChar (c : Char) : Bool :=
  48 ≤ c.toNat && c.toNat ≤ 57

/-- Characters kept by the second replace `/[^\d.]/g`: ASCII digits and '.' (46). -/
def isDigitOrDot (c : Char) : Bool :=
  isDigitChar c || c.toNat = 46

/-- Result of `priceString.replace(/[₹Rs.,\s]/gi, '')` as a character list. -/
def replaceCurrency (s : String) : List Char :=
  s.data.filter (fun c => !isCurrencyStripped c)

/-- Result of the full cleaning pipeline in `extractPrice`: the first replace
removes the currency class, the second removes everything that is not an
ASCII digit or a dot. -/
def cleanedPrice (s : String) : List Char :=
  (replaceCurrency s).filter isDigitOrDot

/-- Value of a list of ASCII digit characters read as a decimal numeral. -/
def digitsToNat (cs : List Char) : ℕ :=
  cs.foldl (fun n c => 10 * n + (c.toNat - 48)) 0

/-- Models JavaScript `parseFloat` on strings built from ASCII digits and
dots — the only strings `cleanedPrice` can produce.  `parseFloat` reads the
longest valid prefix `digits [ '.' digits ]` and returns NaN (here `none`)
when that prefix holds no digit at all, e.g. on the empty string or ".". -/
def parseFloatNum (cs : List Char) : Option ℚ :=
  let intPart := cs.takeWhile isDigitChar
  let rest := cs.dropWhile isDigitChar
  let fracPart := if rest.head? = some '.' then rest.tail.takeWhile isDigitChar else []
  if intPart = [] ∧ fracPart = [] then none
  else some ((digitsToNat intPart : ℚ) + (digitsToNat fracPart : ℚ) / (10 : ℚ) ^ fracPart.length)

/-- Embeds `PriceHelper.extractPrice`: a falsy (empty) input yields 0, then
the two replaces run, then `parseFloat`, with NaN collapsed to 0. -/
def extractPrice (priceString : String) : ℚ :=
  if priceString = "" then 0
  else
    match parseFloatNum (cleanedPrice priceString) with
    | none => 0
    | some price => price

/-- Fuel-driven construction of the decimal digit characters of a natural
number, most significant first, in front of `acc`.  Structural in the fuel so
that the kernel can evaluate it; `natDigits` supplies enough fuel. -/
def natDigitsCore : ℕ → ℕ → List Char → List Char
  | 0, _, acc => acc
  | fuel + 1, n, acc =>
    if n < 10 then Char.ofNat (48 + n) :: acc
    else natDigitsCore fuel (n / 10) (Char.ofNat (48 + n % 10) :: acc)

/-- Decimal digit characters of `n`, most significant first. -/
def natDigits (n : ℕ) : List Char :=
  natDigitsCore (n + 1) n []

/-- Fuel-driven chunking of a list into pieces of `k` elements (last piece
possibly shorter).  Structural in the fuel; callers pass the list's length. -/
def chunksOfCore : ℕ → ℕ → List Char → List (List Char)
  | 0, _, _ => []
  | fuel + 1, k, l => if l = [] then [] else l.take k :: chunksOfCore fuel k (l.drop k)

/-- Indian-system digit grouping used by `toLocaleString('en-IN')`: the last
three digits form one group, the remaining digits pair up, groups are
separated by ','. -/
def groupIndian (ds : List Char) : List Char :=
  (List.intercalate [','] (ds.reverse.take 3 :: chunksOfCore ds.length 2 (ds.reverse.drop 3))).reverse

/-- Left-pads a digit list with '0' to three digits (for a fraction scaled by 1000). -/
def padToThree (ds : List Char) : List Char :=
  List.replicate (3 - ds.length) '0' ++ ds

/-- Drops trailing '0' characters (minimumFractionDigits is 0 for en-IN). -/
def dropTrailingZeros (ds : List Char) : List Char :=
  (ds.reverse.dropWhile (fun c => c == '0')).reverse

/-- Digit/decimal-point characters of `scaled / 1000` where `scaled` is the
value already rounded to three fraction digits: Indian-grouped integer part,
then the non-zero fraction digits, if any, after a '.'. -/
def localeDigits (scaled : ℕ) : List Char :=
  let intPart := scaled / 1000
  let fracPart := scaled % 1000
  if fracPart = 0 then groupIndian (natDigits intPart)
  else groupIndian (natDigits intPart) ++ '.' :: dropTrailingZeros (padToThree (natDigits fracPart))

/-- Rounding half away from zero for nonnegative arguments (the default
roundingMode "halfExpand" of Intl.NumberFormat). -/
def roundHalfExpand (q : ℚ) : ℤ :=
  ⌊q + 1 / 2⌋

/-- Models `Number.prototype.toLocaleString('en-IN')` on finite numbers below
10^21 in magnitude: round to at most three fraction digits (half away from
zero), print without trailing fraction zeros, group the integer part in the
Indian system, prepend '-' for negative values. -/
def toLocaleStringEnIN (q : ℚ) : String :=
  if q < 0 then String.mk ('-' :: localeDigits (roundHalfExpand (-q * 1000)).toNat)
  else String.mk (localeDigits (roundHalfExpand (q * 1000)).toNat)

/-- Embeds `PriceHelper.formatPrice`: the template literal `₹${price.toLocaleString('en-IN')}`. -/
def formatPrice (price : ℚ) : String :=
  "₹" ++ toLocaleStringEnIN price

/-- Character string of a nonnegative integer under the ECMA-262 ToString
algorithm (the JavaScript default `String(n)` conversion): plain decimal
digits while the value has at most 21 digits, and exponent notation
`d[.ddd]e+E` from 10^21 on — `String(1e21)` is `"1e+21"`, with the
significand's trailing zeros dropped and `E` the 0-based decimal exponent. -/
def natToJsString (m : ℕ) : List Char :=
  let ds := natDigits m
  if ds.length ≤ 21 then ds
  else
    (match dropTrailingZeros ds with
     | [] => []
     | d :: rest => if rest = [] then [d] else d :: '.' :: rest)
      ++ 'e' :: '+' :: natDigits (ds.length - 1)

/-- ECMA ToString of an integer: `natToJsString` digits, with a leading '-'
when negative. -/
def jsIntToString (i : ℤ) : String :=
  if i < 0 then String.mk ('-' :: natToJsString i.natAbs)
  else String.mk (natToJsString i.toNat)

/-- Models the default JavaScript number-to-string conversion for the values
`extractPrice` can return, which are all nonnegative integers (theorem
`extractPrice_isNat`): an integral value prints under ECMA ToString, with
exponent notation from 10^21 on.  A non-integral value would print a
shortest round-trip decimal; that case never arises here and falls back to
the integer part. -/
def jsNumToString (q : ℚ) : String :=
  if q.den = 1 then jsIntToString q.num else jsIntToString ⌊q⌋

/-- A name/price record as the cart and product pages build them
(`{ name, price }`; the display-only `priceText` field is dropped). -/
structure ProductItem where
  name : String
  price : ℚ
  deriving Repr, DecidableEq

/-- One entry of the `violations` array built by
`PriceHelper.generateSortViolationReport` (without its derived message). -/
structure SortViolation where
  position : ℕ
  productName : String
  productPrice : ℚ
  previousProductName : String
  previousProductPrice : ℚ
  deriving Repr, DecidableEq

/-- The report object returned by `PriceHelper.generateSortViolationReport`
(without the derived `violationDetails` strings). -/
structure SortReport where
  totalProducts : ℕ
  violationsFound : ℕ
  isCorrectlySorted : Bool
  violations : List SortViolation
  deriving Repr, DecidableEq

/-- The loop of `generateSortViolationReport`: scans the adjacent pairs
`(products[i-1], products[i])` left to right and records a violation with
1-based display position `i + 1` whenever the second price is strictly below
the first.  `idx` is the 0-based index of the pair's first element, so the
recorded position is `idx + 2`. -/
def sortViolationsFrom : ℕ → List ProductItem → List SortViolation
  | _, [] => []
  | _, [_] => []
  | idx, a :: b :: rest =>
    (if b.price < a.price then
      [{ position := idx + 2
         productName := b.name
         productPrice := b.price
         previousProductName := a.name
         previousProductPrice := a.price }]
     else []) ++ sortViolationsFrom (idx + 1) (b :: rest)

/-- Embeds `PriceHelper.generateSortViolationReport`. -/
def generateSortViolationReport (products : List ProductItem) : SortReport :=
  let violations := sortViolationsFrom 0 products
  { totalProducts := products.length
    violationsFound := violations.length
    isCorrectlySorted := violations.length == 0
    violations := violations }

/-- The `status` strings used by `CartPage.validateCartContents`. -/
inductive MatchStatus where
  | MATCH
  | PRICE_MISMATCH
  | NOT_FOUND
  deriving Repr, DecidableEq

/-- One entry of the `matches`/`mismatches` arrays of the validation result
(`{ expected, actual, status }`; `actual` is `none` for a missing product,
mirroring `null`; the derived `message` string is dropped). -/
structure MatchEntry where
  expected : ProductItem
  actual : Option ProductItem
  status : MatchStatus
  deriving Repr, DecidableEq

/-- The result object of `CartPage.validateCartContents`. -/
structure CartValidationResult where
  passed : Bool
  cartItems : List ProductItem
  expectedProducts : List ProductItem
  «matches» : List MatchEntry
  mismatches : List MatchEntry
  deriving Repr, DecidableEq

/-- Models `String.prototype.toLowerCase` as a character list (ASCII-accurate,
which covers every name the matcher is given). -/
def jsToLower (s : String) : List Char :=
  s.data.map Char.toLower

/-- The fuzzy name predicate of `validateCartContents`:
`item.name.toLowerCase().includes(expected.name.toLowerCase().substring(0, 20))
 || expected.name.toLowerCase().includes(item.name.toLowerCase().substring(0, 20))`. -/
def nameMatches (item expected : ProductItem) : Bool :=
  decide ((jsToLower expected.name).take 20 <:+: jsToLower item.name) ||
  decide ((jsToLower item.name).take 20 <:+: jsToLower expected.name)

/-- The body of the `for (const expected of expectedProducts)` loop of
`validateCartContents`, acting on the accumulated result object. -/
def processExpected (cartItems : List ProductItem) (acc : CartValidationResult)
    (expected : ProductItem) : CartValidationResult :=
  match cartItems.find? (fun item => nameMatches item expected) with
  | some matchingItem =>
    let priceDiff := |matchingItem.price - expected.price|
    if priceDiff < 100 ∨ expected.price = 0 then
      { acc with «matches» := acc.«matches» ++
          [{ expected := expected, actual := some matchingItem, status := MatchStatus.MATCH }] }
    else
      { acc with passed := false,
                 mismatches := acc.mismatches ++
          [{ expected := expected, actual := some matchingItem, status := MatchStatus.PRICE_MISMATCH }] }
  | none =>
    { acc with passed := false,
               mismatches := acc.mismatches ++
        [{ expected := expected, actual := none, status := MatchStatus.NOT_FOUND }] }

/-- Embeds `CartPage.validateCartContents`.  The scraped cart list (the value
of `await this.getCartItems()`) is an explicit argument. -/
def validateCartContents (expectedProducts cartItems : List ProductItem) : CartValidationResult :=
  expectedProducts.foldl (processExpected cartItems)
    { passed := true
      cartItems := cartItems
      expectedProducts := expectedProducts
      «matches» := []
      mismatches := [] }

/-- The result object of `CartPage.validateTotal` (the derived `message`
string is dropped). -/
structure TotalValidation where
  displayedTotal : ℚ
  calculatedTotal : ℚ
  expectedTotal : ℚ
  isDisplayedCorrect : Bool
  isCalculatedCorrect : Bool
  deriving Repr, DecidableEq

/-- Embeds `CartPage.validateTotal`.  The two totals read from the page
(`await this.getCartTotal()` and `await this.calculateExpectedTotal()`) are
explicit arguments; the tolerance is the hardcoded `expectedTotal * 0.1`. -/
def validateTotal (displayedTotal calculatedTotal expectedTotal : ℚ) : TotalValidation :=
  let tolerance := expectedTotal * (1 / 10)
  { displayedTotal := displayedTotal
    calculatedTotal := calculatedTotal
    expectedTotal := expectedTotal
    isDisplayedCorrect := decide (|displayedTotal - expectedTotal| ≤ tolerance)
    isCalculatedCorrect := decide (|calculatedTotal - expectedTotal| ≤ tolerance) }

/-- Modelled from the spec: the contract
`compareTotal(displayed, calculated, expected, toleranceRatio) -> TotalComparison`
with a derived boolean per side, `|displayed - expected| <= expected * toleranceRatio`
and the same for the calculated side, the tolerance rate being caller-supplied.
Stated over the same result record so it can be compared with `validateTotal`. -/
def compareTotalSpec (displayed calculated expected tolRate : ℚ) : TotalValidation :=
  { displayedTotal := displayed
    calculatedTotal := calculated
    expectedTotal := expected
    isDisplayedCorrect := decide (|displayed - expected| ≤ expected * tolRate)
    isCalculatedCorrect := decide (|calculated - expected| ≤ expected * tolRate) }

/-- Default item used only to state positional lookups with `List.getD`. -/
def defaultItem : ProductItem := { name := "", price := 0 }

/-- The verdict entry the loop body produces for one expected item. -/
def matchEntryFor (cartItems : List ProductItem) (expected : ProductItem) : MatchEntry :=
  match cartItems.find? (fun item => nameMatches item expected) with
  | some matchingItem =>
    if |matchingItem.price - expected.price| < 100 ∨ expected.price = 0 then
      { expected := expected, actual := some matchingItem, status := MatchStatus.MATCH }
    else
      { expected := expected, actual := some matchingItem, status := MatchStatus.PRICE_MISMATCH }
  | none => { expected := expected, actual := none, status := MatchStatus.NOT_FOUND }

/-- The fuzzy matching criterion of the spec, at the `Prop` level: the first
twenty characters of one lower-cased name are a substring of the other
lower-cased name, or vice versa. -/
def nameMatchesSpec (item expected : ProductItem) : Prop :=
  (jsToLower expected.name).take 20 <:+: jsToLower item.name ∨
  (jsToLower item.name).take 20 <:+: jsToLower expected.name

/-! ### Digit and character facts -/

theorem toNat_ofNat_digit (m : ℕ) (h : m < 10) : (Char.ofNat (48 + m)).toNat = 48 + m := by
  interval_cases m <;> decide

theorem isDigitChar_ofNat_digit (m : ℕ) (h : m < 10) :
    isDigitChar (Char.ofNat (48 + m)) = true := by
  interval_cases m <;> decide

theorem isDigitChar_not_stripped (c : Char) (h : isDigitChar c = true) :
    isCurrencyStripped c = false := by
  simp only [isDigitChar, Bool.and_eq_true, decide_eq_true_eq] at h
  simp only [isCurrencyStripped, isJsSpace, Bool.or_eq_false_iff, decide_eq_false_iff_not,
    Bool.and_eq_false_iff, decide_eq_false_iff_not]
  omega

theorem isDigitChar_isDigitOrDot (c : Char) (h : isDigitChar c = true) :
    isDigitOrDot c = true := by
  simp [isDigitOrDot, h]

theorem digitsToNat_append_singleton (cs : List Char) (c : Char) :
    digitsToNat (cs ++ [c]) = 10 * digitsToNat cs + (c.toNat - 48) := by
  simp [digitsToNat, List.foldl_append]

/-! ### Properties of the digit printer -/

theorem natDigitsCore_eq_append (fuel : ℕ) :
    ∀ n acc, n < fuel → natDigitsCore fuel n acc = natDigitsCore fuel n [] ++ acc := by
  induction fuel with
  | zero => intro n acc h; omega
  | succ fuel ih =>
    intro n acc _
    by_cases h10 : n < 10
    · simp [natDigitsCore, h10]
    · have hlt : n / 10 < fuel := by omega
      simp only [natDigitsCore, if_neg h10]
      rw [ih (n / 10) (Char.ofNat (48 + n % 10) :: acc) hlt,
        ih (n / 10) [Char.ofNat (48 + n % 10)] hlt, List.append_assoc]
      simp

theorem natDigitsCore_spec (fuel : ℕ) :
    ∀ n, n < fuel →
      natDigitsCore fuel n [] ≠ [] ∧
      (∀ c ∈ natDigitsCore fuel n [], isDigitChar c = true) ∧
      digitsToNat (natDigitsCore fuel n []) = n := by
  induction fuel with
  | zero => intro n h; omega
  | succ fuel ih =>
    intro n hn
    by_cases h10 : n < 10
    · refine ⟨by simp [natDigitsCore, h10], ?_, ?_⟩
      · intro c hc
        simp only [natDigitsCore, if_pos h10, List.mem_singleton] at hc
        subst hc
        exact isDigitChar_ofNat_digit n h10
      · simp only [natDigitsCore, if_pos h10]
        have := toNat_ofNat_digit n h10
        simp [digitsToNat, this]
    · have hlt : n / 10 < fuel := by omega
      obtain ⟨hne, hdig, hval⟩ := ih (n / 10) hlt
      have hmod : n % 10 < 10 := Nat.mod_lt _ (by omega)
      simp only [natDigitsCore, if_neg h10]
      rw [natDigitsCore_eq_append fuel (n / 10) _ hlt]
      refine ⟨by simp, ?_, ?_⟩
      · intro c hc
        rcases List.mem_append.mp hc with h | h
        · exact hdig c h
        · simp only [List.mem_singleton] at h
          subst h
          exact isDigitChar_ofNat_digit _ hmod
      · rw [digitsToNat_append_singleton, hval, toNat_ofNat_digit _ hmod]
        omega

theorem natDigits_ne_nil (n : ℕ) : natDigits n ≠ [] :=
  (natDigitsCore_spec (n + 1) n (Nat.lt_succ_self n)).1

theorem natDigits_all_digits (n : ℕ) : ∀ c ∈ natDigits n, isDigitChar c = true :=
  (natDigitsCore_spec (n + 1) n (Nat.lt_succ_self n)).2.1

theorem digitsToNat_natDigits (n : ℕ) : digitsToNat (natDigits n) = n :=
  (natDigitsCore_spec (n + 1) n (Nat.lt_succ_self n)).2.2

theorem natDigitsCore_fuel_irrel (n : ℕ) :
    ∀ fuel fuel', n < fuel → n < fuel' →
      natDigitsCore fuel n [] = natDigitsCore fuel' n [] := by
  induction n using Nat.strong_induction_on with
  | _ n ih =>
    intro fuel fuel' h h'
    cases fuel with
    | zero => omega
    | succ f =>
      cases fuel' with
      | zero => omega
      | succ f' =>
        by_cases h10 : n < 10
        · simp [natDigitsCore, h10]
        · have hf : n / 10 < f := by omega
          have hf' : n / 10 < f' := by omega
          simp only [natDigitsCore, if_neg h10]
          rw [natDigitsCore_eq_append f _ _ hf, natDigitsCore_eq_append f' _ _ hf',
            ih (n / 10) (by omega) f f' hf hf']

theorem natDigits_ge10_unfold (m : ℕ) (h : 10 ≤ m) :
    natDigits m = natDigits (m / 10) ++ [Char.ofNat (48 + m % 10)] := by
  have h10 : ¬ m < 10 := by omega
  show natDigitsCore (m + 1) m [] = _
  have hstep : natDigitsCore (m + 1) m [] =
      natDigitsCore m (m / 10) [Char.ofNat (48 + m % 10)] := by
    simp only [natDigitsCore, if_neg h10]
  rw [hstep, natDigitsCore_eq_append m _ _ (by omega)]
  congr 1
  exact natDigitsCore_fuel_irrel (m / 10) m (m / 10 + 1) (by omega) (by omega)

theorem natDigits_length_le (m : ℕ) :
    ∀ L, 1 ≤ L → m < 10 ^ L → (natDigits m).length ≤ L := by
  induction m using Nat.strong_induction_on with
  | _ m ih =>
    intro L hL hm
    by_cases h10 : m < 10
    · have h1 : natDigits m = [Char.ofNat (48 + m)] := by
        simp [natDigits, natDigitsCore, h10]
      simp [h1]
      omega
    · have hL2 : 2 ≤ L := by
        by_contra hc
        have hL1 : L = 1 := by omega
        subst hL1
        simp [pow_one] at hm
        omega
      rw [natDigits_ge10_unfold m (by omega)]
      have hpow : 10 ^ L = 10 ^ (L - 1) * 10 := by
        rw [← pow_succ]
        congr 1
        omega
      have hdiv : m / 10 < 10 ^ (L - 1) := by
        rw [Nat.div_lt_iff_lt_mul (by omega)]
        omega
      have hrec := ih (m / 10) (by omega) (L - 1) (by omega) hdiv
      simp only [List.length_append, List.length_singleton]
      omega

theorem natToJsString_of_lt (m : ℕ) (h : m < 10 ^ 21) : natToJsString m = natDigits m := by
  unfold natToJsString
  rw [if_pos (natDigits_length_le m 21 (by omega) h)]

/-! ### Structure of the cleaned price string -/

theorem dot_stripped : isCurrencyStripped '.' = true := by decide

theorem dot_not_mem_replaceCurrency (s : String) : '.' ∉ replaceCurrency s := by
  intro h
  have := (List.mem_filter.mp h).2
  simp [isCurrencyStripped] at this

theorem mem_cleanedPrice_digit (s : String) :
    ∀ c ∈ cleanedPrice s, isDigitChar c = true := by
  intro c hc
  obtain ⟨hmem, hdd⟩ := List.mem_filter.mp hc
  have hstr := (List.mem_filter.mp hmem).2
  simp only [isDigitOrDot, Bool.or_eq_true, decide_eq_true_eq] at hdd
  rcases hdd with h | h
  · exact h
  · exfalso
    simp only [Bool.not_eq_eq_eq_not, Bool.not_true] at hstr
    simp [isCurrencyStripped, h] at hstr

theorem parseFloatNum_all_digits (cs : List Char) (h : ∀ c ∈ cs, isDigitChar c = true) :
    parseFloatNum cs = if cs = [] then none else some ((digitsToNat cs : ℕ) : ℚ) := by
  have htake : cs.takeWhile isDigitChar = cs := List.takeWhile_eq_self_iff.mpr h
  have hdrop : cs.dropWhile isDigitChar = [] := List.dropWhile_eq_nil_iff.mpr h
  simp only [parseFloatNum, htake, hdrop]
  by_cases hcs : cs = []
  · simp [hcs, digitsToNat]
  · simp only [List.head?_nil, if_neg hcs]
    norm_num [hcs, digitsToNat]

theorem extractPrice_eq_ite (s : String) :
    extractPrice s = if cleanedPrice s = [] then 0 else ((digitsToNat (cleanedPrice s) : ℕ) : ℚ) := by
  unfold extractPrice
  by_cases hs : s = ""
  · subst hs
    have h0 : cleanedPrice "" = [] := by decide
    simp [h0]
  · rw [if_neg hs, parseFloatNum_all_digits _ (mem_cleanedPrice_digit s)]
    by_cases hc : cleanedPrice s = [] <;> simp [hc]

theorem extractPrice_isNat (s : String) : ∃ n : ℕ, extractPrice s = (n : ℚ) := by
  rw [extractPrice_eq_ite]
  by_cases hc : cleanedPrice s = []
  · exact ⟨0, by simp [hc]⟩
  · exact ⟨digitsToNat (cleanedPrice s), by simp [hc]⟩

/-! ### extractPrice on strings of plain digits -/

theorem cleanedPrice_of_digits (cs : List Char) (h : ∀ c ∈ cs, isDigitChar c = true) :
    cleanedPrice (String.mk cs) = cs := by
  have h1 : replaceCurrency (String.mk cs) = cs := by
    apply List.filter_eq_self.mpr
    intro c hc
    simp [isDigitChar_not_stripped c (h c hc)]
  simp only [cleanedPrice, h1]
  exact List.filter_eq_self.mpr fun c hc => isDigitChar_isDigitOrDot c (h c hc)

theorem extractPrice_mk_digits (cs : List Char) (h : ∀ c ∈ cs, isDigitChar c = true)
    (hne : cs ≠ []) : extractPrice (String.mk cs) = (digitsToNat cs : ℚ) := by
  rw [extractPrice_eq_ite, cleanedPrice_of_digits cs h, if_neg hne]

theorem extractPrice_natDigits (n : ℕ) :
    extractPrice (String.mk (natDigits n)) = (n : ℚ) := by
  rw [extractPrice_mk_digits (natDigits n) (natDigits_all_digits n) (natDigits_ne_nil n),
    digitsToNat_natDigits]

/-! ### The Indian grouping only inserts commas -/

theorem chunksOfCore_flatten (fuel : ℕ) :
    ∀ k l, l.length ≤ fuel → 1 ≤ k → (chunksOfCore fuel k l).flatten = l := by
  induction fuel with
  | zero =>
    intro k l hl _
    have : l = [] := List.eq_nil_of_length_eq_zero (by omega)
    simp [chunksOfCore, this]
  | succ fuel ih =>
    intro k l hl hk
    by_cases hnil : l = []
    · simp [chunksOfCore, hnil]
    · have hlen : (l.drop k).length ≤ fuel := by
        have : 1 ≤ l.length := List.length_pos.mpr hnil
        simp only [List.length_drop]
        omega
      simp only [chunksOfCore, if_neg hnil, List.flatten_cons, ih k (l.drop k) hlen hk,
        List.take_append_drop]

theorem filter_intercalate_comma (p : Char → Bool) (hp : p ',' = false) :
    ∀ xss : List (List Char), (∀ c ∈ xss.flatten, p c = true) →
      (List.intercalate [','] xss).filter p = xss.flatten := by
  intro xss
  induction xss with
  | nil => intro _; simp [List.intercalate]
  | cons x t ih =>
    intro hall
    cases t with
    | nil =>
      simp only [List.intercalate, List.intersperse_singleton, List.flatten,
        List.flatten_nil, List.append_nil] at *
      exact List.filter_eq_self.mpr hall
    | cons y t' =>
      have hx : ∀ c ∈ x, p c = true := fun c hc => hall c (by simp [hc])
      have hrest : ∀ c ∈ (y :: t').flatten, p c = true := fun c hc =>
        hall c (by rw [List.flatten_cons]; exact List.mem_append.mpr (Or.inr hc))
      have hstep : List.intercalate [','] (x :: y :: t') =
          x ++ [','] ++ List.intercalate [','] (y :: t') := by
        simp [List.intercalate, List.intersperse]
      rw [hstep, List.filter_append, List.filter_append, List.filter_eq_self.mpr hx,
        ih hrest]
      simp [hp, List.flatten_cons]

theorem groupIndian_filter (p : Char → Bool) (hp : p ',' = false) (ds : List Char)
    (hall : ∀ c ∈ ds, p c = true) : (groupIndian ds).filter p = ds := by
  have hallrev : ∀ c ∈ ds.reverse, p c = true := fun c hc => hall c (List.mem_reverse.mp hc)
  have hflat :
      (ds.reverse.take 3 :: chunksOfCore ds.length 2 (ds.reverse.drop 3)).flatten = ds.reverse := by
    have hlen : (ds.reverse.drop 3).length ≤ ds.length := by
      simp only [List.length_drop, List.length_reverse]
      omega
    simp only [List.flatten_cons, chunksOfCore_flatten ds.length 2 _ hlen (by omega),
      List.take_append_drop]
  have hmem : ∀ c ∈ (ds.reverse.take 3 :: chunksOfCore ds.length 2 (ds.reverse.drop 3)).flatten,
      p c = true := by rw [hflat]; exact hallrev
  calc (groupIndian ds).filter p
      = (List.intercalate [','] (ds.reverse.take 3 ::
          chunksOfCore ds.length 2 (ds.reverse.drop 3))).reverse.filter p := rfl
    _ = ((List.intercalate [','] (ds.reverse.take 3 ::
          chunksOfCore ds.length 2 (ds.reverse.drop 3))).filter p).reverse := by
          rw [List.filter_reverse]
    _ = ds.reverse.reverse := by rw [filter_intercalate_comma p hp _ hmem, hflat]
    _ = ds := List.reverse_reverse ds

/-! ### formatPrice on whole numbers -/

theorem roundHalfExpand_natCast (m : ℕ) : roundHalfExpand ((m : ℚ)) = (m : ℤ) := by
  unfold roundHalfExpand
  have : ((m : ℚ)) = ((m : ℤ) : ℚ) := by push_cast; ring
  rw [this, Int.floor_int_add]
  norm_num

theorem toLocaleStringEnIN_natCast (n : ℕ) :
    toLocaleStringEnIN (n : ℚ) = String.mk (groupIndian (natDigits n)) := by
  unfold toLocaleStringEnIN
  rw [if_neg (not_lt.mpr (Nat.cast_nonneg n))]
  have hcast : ((n : ℚ)) * 1000 = ((n * 1000 : ℕ) : ℚ) := by push_cast; ring
  rw [hcast, roundHalfExpand_natCast]
  have htn : ((n * 1000 : ℕ) : ℤ).toNat = n * 1000 := Int.toNat_natCast _
  rw [htn]
  unfold localeDigits
  have hdiv : n * 1000 / 1000 = n := Nat.mul_div_cancel n (by omega)
  have hmod : n * 1000 % 1000 = 0 := Nat.mul_mod_left n 1000
  simp [hdiv, hmod]

theorem formatPrice_natCast (n : ℕ) :
    formatPrice (n : ℚ) = String.mk ('₹' :: groupIndian (natDigits n)) := by
  unfold formatPrice
  rw [toLocaleStringEnIN_natCast]
  rfl

/-! ### Round-tripping whole numbers through formatting -/

theorem cleanedPrice_format_nat (n : ℕ) :
    cleanedPrice (String.mk ('₹' :: groupIndian (natDigits n))) = natDigits n := by
  have hall : ∀ c ∈ natDigits n, (!isCurrencyStripped c) = true := fun c hc => by
    simp [isDigitChar_not_stripped c (natDigits_all_digits n c hc)]
  have h1 : replaceCurrency (String.mk ('₹' :: groupIndian (natDigits n))) = natDigits n := by
    show List.filter _ ('₹' :: groupIndian (natDigits n)) = natDigits n
    rw [List.filter_cons_of_neg (by decide)]
    exact groupIndian_filter _ (by decide) _ hall
  simp only [cleanedPrice, h1]
  exact List.filter_eq_self.mpr fun c hc =>
    isDigitChar_isDigitOrDot c (natDigits_all_digits n c hc)

theorem extractPrice_format_nat (n : ℕ) :
    extractPrice (String.mk ('₹' :: groupIndian (natDigits n))) = (n : ℚ) := by
  rw [extractPrice_eq_ite, cleanedPrice_format_nat, if_neg (natDigits_ne_nil n),
    digitsToNat_natDigits]

theorem jsNumToString_natCast (m : ℕ) :
    jsNumToString ((m : ℕ) : ℚ) = String.mk (natToJsString m) := by
  unfold jsNumToString
  rw [if_pos (Rat.den_natCast m), jsIntToString, Rat.num_natCast,
    if_neg (not_lt.mpr (Int.natCast_nonneg m)), Int.toNat_natCast]

/-! ### Properties of the sort-violation scanner -/

theorem sortViolationsFrom_nil_iff (l : List ProductItem) :
    ∀ idx, sortViolationsFrom idx l = [] ↔
      List.Chain' (fun a b => a.price ≤ b.price) l := by
  induction l with
  | nil => intro idx; simp [sortViolationsFrom]
  | cons a t ih =>
    intro idx
    cases t with
    | nil => simp [sortViolationsFrom]
    | cons b rest =>
      rw [List.chain'_cons, ← ih (idx + 1)]
      constructor
      · intro h
        simp only [sortViolationsFrom, List.append_eq_nil] at h
        refine ⟨?_, h.2⟩
        by_contra hlt
        simp [not_le] at hlt
        simp [if_pos hlt] at h
      · rintro ⟨hle, hrec⟩
        simp [sortViolationsFrom, if_neg (not_lt.mpr hle), hrec]

theorem sortViolationsFrom_strict (l : List ProductItem) :
    ∀ idx v, v ∈ sortViolationsFrom idx l →
      v.productPrice < v.previousProductPrice ∧ idx + 2 ≤ v.position := by
  induction l with
  | nil => intro idx v h; simp [sortViolationsFrom] at h
  | cons a t ih =>
    intro idx v h
    cases t with
    | nil => simp [sortViolationsFrom] at h
    | cons b rest =>
      simp only [sortViolationsFrom, List.mem_append] at h
      rcases h with h | h
      · by_cases hlt : b.price < a.price
        · rw [if_pos hlt, List.mem_singleton] at h
          subst h
          exact ⟨hlt, le_refl _⟩
        · simp [if_neg hlt] at h
      · obtain ⟨h1, h2⟩ := ih (idx + 1) v h
        exact ⟨h1, by omega⟩

theorem sortViolationsFrom_pairwise (l : List ProductItem) :
    ∀ idx, List.Pairwise (fun u v => u.position < v.position) (sortViolationsFrom idx l) := by
  induction l with
  | nil => intro idx; simp [sortViolationsFrom]
  | cons a t ih =>
    intro idx
    cases t with
    | nil => simp [sortViolationsFrom]
    | cons b rest =>
      simp only [sortViolationsFrom]
      by_cases hlt : b.price < a.price
      · rw [if_pos hlt]
        simp only [List.singleton_append, List.pairwise_cons]
        refine ⟨fun v hv => ?_, ih (idx + 1)⟩
        have h2 := (sortViolationsFrom_strict (b :: rest) (idx + 1) v hv).2
        show idx + 2 < v.position
        omega
      · rw [if_neg hlt, List.nil_append]
        exact ih (idx + 1)

theorem sortViolationsFrom_mem_iff (l : List ProductItem) :
    ∀ idx v, v ∈ sortViolationsFrom idx l ↔
      ∃ i, i + 1 < l.length ∧
        (l.getD (i + 1) defaultItem).price < (l.getD i defaultItem).price ∧
        v = { position := idx + i + 2
              productName := (l.getD (i + 1) defaultItem).name
              productPrice := (l.getD (i + 1) defaultItem).price
              previousProductName := (l.getD i defaultItem).name
              previousProductPrice := (l.getD i defaultItem).price } := by
  induction l with
  | nil => intro idx v; simp [sortViolationsFrom]
  | cons a t ih =>
    intro idx v
    cases t with
    | nil =>
      simp [sortViolationsFrom]
    | cons b rest =>
      simp only [sortViolationsFrom, List.mem_append]
      constructor
      · intro h
        rcases h with h | h
        · by_cases hlt : b.price < a.price
          · rw [if_pos hlt, List.mem_singleton] at h
            refine ⟨0, by simp [List.length_cons], ?_, ?_⟩
            · simpa [List.getD_cons_succ, List.getD_cons_zero] using hlt
            · simp only [List.getD_cons_succ, List.getD_cons_zero]
              rw [h]
          · simp [if_neg hlt] at h
        · obtain ⟨i, hi, hprice, hv⟩ := (ih (idx + 1) v).mp h
          refine ⟨i + 1, ?_, ?_, ?_⟩
          · simp only [List.length_cons] at hi ⊢; omega
          · simpa [List.getD_cons_succ] using hprice
          · rw [hv]
            simp only [List.getD_cons_succ]
            congr 1
            omega
      · rintro ⟨i, hi, hprice, hv⟩
        cases i with
        | zero =>
          left
          simp only [List.getD_cons_succ, List.getD_cons_zero] at hprice hv
          rw [if_pos hprice, List.mem_singleton, hv]
        | succ j =>
          right
          apply (ih (idx + 1) v).mpr
          refine ⟨j, ?_, ?_, ?_⟩
          · simp only [List.length_cons] at hi ⊢; omega
          · simpa [List.getD_cons_succ] using hprice
          · rw [hv]
            simp only [List.getD_cons_succ]
            congr 1
            omega

/-! ### Characterizing the cart reconciliation loop -/

theorem processExpected_eq (cartItems : List ProductItem) (acc : CartValidationResult)
    (e : ProductItem) :
    processExpected cartItems acc e =
      { passed := acc.passed && ((matchEntryFor cartItems e).status == MatchStatus.MATCH),
        cartItems := acc.cartItems,
        expectedProducts := acc.expectedProducts,
        «matches» := acc.«matches» ++
          (if (matchEntryFor cartItems e).status == MatchStatus.MATCH
           then [matchEntryFor cartItems e] else []),
        mismatches := acc.mismatches ++
          (if (matchEntryFor cartItems e).status == MatchStatus.MATCH
           then [] else [matchEntryFor cartItems e]) } := by
  unfold processExpected matchEntryFor
  cases hfind : cartItems.find? (fun item => nameMatches item e) with
  | none => simp
  | some m =>
    by_cases hp : |m.price - e.price| < 100 ∨ e.price = 0
    · simp [hp]
    · simp [hp]

theorem foldl_processExpected (cartItems : List ProductItem) :
    ∀ (es : List ProductItem) (acc : CartValidationResult),
      es.foldl (processExpected cartItems) acc =
        { passed := acc.passed &&
            es.all (fun e => (matchEntryFor cartItems e).status == MatchStatus.MATCH),
          cartItems := acc.cartItems,
          expectedProducts := acc.expectedProducts,
          «matches» := acc.«matches» ++
            (es.filter (fun e => (matchEntryFor cartItems e).status == MatchStatus.MATCH)).map
              (matchEntryFor cartItems),
          mismatches := acc.mismatches ++
            (es.filter
              (fun e => !((matchEntryFor cartItems e).status == MatchStatus.MATCH))).map
              (matchEntryFor cartItems) } := by
  intro es
  induction es with
  | nil => intro acc; simp
  | cons e t ih =>
    intro acc
    rw [List.foldl_cons, processExpected_eq, ih]
    by_cases h : (matchEntryFor cartItems e).status == MatchStatus.MATCH
    · simp [h, List.filter_cons, Bool.and_assoc]
    · simp only [Bool.not_eq_true] at h
      simp [h, List.filter_cons, Bool.and_assoc]

theorem validateCartContents_eq (es cartItems : List ProductItem) :
    validateCartContents es cartItems =
      { passed := es.all (fun e => (matchEntryFor cartItems e).status == MatchStatus.MATCH),
        cartItems := cartItems,
        expectedProducts := es,
        «matches» := (es.filter
            (fun e => (matchEntryFor cartItems e).status == MatchStatus.MATCH)).map
          (matchEntryFor cartItems),
        mismatches := (es.filter
            (fun e => !((matchEntryFor cartItems e).status == MatchStatus.MATCH))).map
          (matchEntryFor cartItems) } := by
  unfold validateCartContents
  rw [foldl_processExpected]
  simp

theorem find?_of_first (p : ProductItem → Bool) :
    ∀ (pre : List ProductItem) (a : ProductItem) (post : List ProductItem),
      (∀ b ∈ pre, p b = false) → p a = true →
      List.find? p (pre ++ a :: post) = some a := by
  intro pre
  induction pre with
  | nil =>
    intro a post _ ha
    simp [List.find?_cons, ha]
  | cons x t ih =>
    intro a post hpre ha
    have hx : p x = false := hpre x (by simp)
    rw [List.cons_append, List.find?_cons_of_neg _ (by simp [hx])]
    exact ih a post (fun b hb => hpre b (by simp [hb])) ha

theorem nameMatches_iff_spec (item expected : ProductItem) :
    nameMatches item expected = true ↔ nameMatchesSpec item expected := by
  simp [nameMatches, nameMatchesSpec]

theorem matchEntryFor_some (cartItems : List ProductItem) (e m : ProductItem)
    (hfind : cartItems.find? (fun item => nameMatches item e) = some m) :
    matchEntryFor cartItems e =
      if |m.price - e.price| < 100 ∨ e.price = 0 then
        { expected := e, actual := some m, status := MatchStatus.MATCH }
      else
        { expected := e, actual := some m, status := MatchStatus.PRICE_MISMATCH } := by
  unfold matchEntryFor
  rw [hfind]

theorem matchEntryFor_none (cartItems : List ProductItem) (e : ProductItem)
    (hfind : cartItems.find? (fun item => nameMatches item e) = none) :
    matchEntryFor cartItems e =
      { expected := e, actual := none, status := MatchStatus.NOT_FOUND } := by
  unfold matchEntryFor
  rw [hfind]

theorem matchEntryFor_expected (cartItems : List ProductItem) (e : ProductItem) :
    (matchEntryFor cartItems e).expected = e := by
  unfold matchEntryFor
  cases cartItems.find? (fun item => nameMatches item e) with
  | none => rfl
  | some m =>
    dsimp only
    split <;> rfl

theorem matchEntryFor_actual (cartItems : List ProductItem) (e : ProductItem) :
    (matchEntryFor cartItems e).actual =
      cartItems.find? (fun item => nameMatches item e) := by
  unfold matchEntryFor
  cases cartItems.find? (fun item => nameMatches item e) with
  | none => rfl
  | some m =>
    dsimp only
    split <;> rfl

theorem mem_matches_of_MATCH (es cartItems : List ProductItem) (e : ProductItem)
    (he : e ∈ es) (h : (matchEntryFor cartItems e).status = MatchStatus.MATCH) :
    matchEntryFor cartItems e ∈ (validateCartContents es cartItems).«matches» := by
  rw [validateCartContents_eq]
  exact List.mem_map_of_mem _ (List.mem_filter.mpr ⟨he, by simp [h]⟩)

theorem mem_mismatches_of_not_MATCH (es cartItems : List ProductItem) (e : ProductItem)
    (he : e ∈ es) (h : (matchEntryFor cartItems e).status ≠ MatchStatus.MATCH) :
    matchEntryFor cartItems e ∈ (validateCartContents es cartItems).mismatches := by
  rw [validateCartContents_eq]
  exact List.mem_map_of_mem _ (List.mem_filter.mpr ⟨he, by simp [h]⟩)

theorem passed_false_of_not_MATCH (es cartItems : List ProductItem) (e : ProductItem)
    (he : e ∈ es) (h : (matchEntryFor cartItems e).status ≠ MatchStatus.MATCH) :
    (validateCartContents es cartItems).passed = false := by
  rw [validateCartContents_eq]
  show (es.all fun e => (matchEntryFor cartItems e).status == MatchStatus.MATCH) = false
  cases hall : es.all fun e => (matchEntryFor cartItems e).status == MatchStatus.MATCH with
  | false => rfl
  | true =>
    have := List.all_eq_true.mp hall e he
    simp only [beq_iff_eq] at this
    exact absurd this h

/-! ### The claims -/

/-- Claim C1 (evidence; the code contradicts the documented algorithm at the
fourth example): the embedded `extractPrice` evaluates to the documented
values on "", "₹1,299" and "no price", but on "Rs. 45.50" it returns 4550,
not the documented 45.5 — the first replace also deletes the '.' that the
code's own comment says is kept. -/
theorem extractPrice_concrete_examples :
    extractPrice "" = 0 ∧ extractPrice "₹1,299" = 1299 ∧
    extractPrice "no price" = 0 ∧ extractPrice "Rs. 45.50" = 4550 := by
  refine ⟨?_, ?_, ?_, ?_⟩
  · have h : cleanedPrice "" = [] := by decide
    rw [extractPrice_eq_ite, h]
    simp
  · have h : cleanedPrice "₹1,299" = ['1', '2', '9', '9'] := by decide
    have h2 : digitsToNat ['1', '2', '9', '9'] = 1299 := by decide
    rw [extractPrice_eq_ite, h]
    simp [h2]
  · have h : cleanedPrice "no price" = [] := by decide
    rw [extractPrice_eq_ite, h]
    simp
  · have h : cleanedPrice "Rs. 45.50" = ['4', '5', '5', '0'] := by decide
    have h2 : digitsToNat ['4', '5', '5', '0'] = 4550 := by decide
    rw [extractPrice_eq_ite, h]
    simp [h2]

/-- Claim C10: `extractPrice` never returns a fractional value.  The first
substitution removes every '.' from the string, so the cleaned string is all
digits, the parse yields a whole number for every input, and a fractional
price such as "45.50" collapses to the digit string 4550. -/
theorem extractPrice_whole_number :
    (∀ s : String, '.' ∉ replaceCurrency s) ∧
    (∀ s : String, ∃ n : ℕ, extractPrice s = (n : ℚ)) ∧
    extractPrice "45.50" = 4550 := by
  refine ⟨dot_not_mem_replaceCurrency, extractPrice_isNat, ?_⟩
  have h : cleanedPrice "45.50" = ['4', '5', '5', '0'] := by decide
  have h2 : digitsToNat ['4', '5', '5', '0'] = 4550 := by decide
  rw [extractPrice_eq_ite, h]
  simp [h2]

/-- Claim C9 counterexample: idempotence fails once the extracted value
reaches 10^21.  On the 22-digit input "1" followed by 21 zeros,
`extractPrice` yields 10^21, the JS string form is "1e+21" (exponent
notation), and re-normalizing that strips 'e' and '+' to the digit string
"121", so the round trip returns 121, not 10^21. -/
theorem extractPrice_idempotent_cex :
    extractPrice (jsNumToString (extractPrice "1000000000000000000000")) ≠
      extractPrice "1000000000000000000000" := by
  have hc : cleanedPrice "1000000000000000000000" = "1000000000000000000000".data := by decide
  have hne : "1000000000000000000000".data ≠ [] := by decide
  have hd : digitsToNat "1000000000000000000000".data = 10 ^ 21 := by decide
  have h1 : extractPrice "1000000000000000000000" = ((10 ^ 21 : ℕ) : ℚ) := by
    rw [extractPrice_eq_ite, hc, if_neg hne, hd]
  rw [h1, jsNumToString_natCast]
  have hjs : natToJsString (10 ^ 21) = ['1', 'e', '+', '2', '1'] := by decide
  rw [hjs]
  have hc2 : cleanedPrice (String.mk ['1', 'e', '+', '2', '1']) = ['1', '2', '1'] := by decide
  have hd2 : digitsToNat ['1', '2', '1'] = 121 := by decide
  rw [extractPrice_eq_ite, hc2, if_neg (by decide), hd2]
  intro hEq
  have h121 : (121 : ℕ) = 10 ^ 21 := by exact_mod_cast hEq
  norm_num at h121

/-- Claim C9 (amended): `extractPrice` always returns a value that is at
least zero, and re-normalizing the string form of its output returns the
same number whenever that output is below 10^21 — from 10^21 on, the JS
string form switches to exponent notation, which `extractPrice` mangles
(counterexample above). -/
theorem extractPrice_nonneg_idempotent_below :
    ∀ s : String,
      0 ≤ extractPrice s ∧
      (extractPrice s < ((10 ^ 21 : ℕ) : ℚ) →
        extractPrice (jsNumToString (extractPrice s)) = extractPrice s) := by
  intro s
  obtain ⟨n, hn⟩ := extractPrice_isNat s
  rw [hn]
  refine ⟨Nat.cast_nonneg n, fun h => ?_⟩
  have hlt : n < 10 ^ 21 := by exact_mod_cast h
  rw [jsNumToString_natCast, natToJsString_of_lt n hlt, extractPrice_natDigits]

/-- Claim C2 counterexample: the round trip fails at the nonnegative number
1/2: `formatPrice (1/2)` is "₹0.5", and `extractPrice` of that string is 5
(the '.' is stripped), not 1/2. -/
theorem extractPrice_formatPrice_half_cex :
    (0 : ℚ) ≤ 1 / 2 ∧ extractPrice (formatPrice (1 / 2)) ≠ 1 / 2 := by
  refine ⟨by norm_num, ?_⟩
  have h1 : roundHalfExpand ((1 / 2 : ℚ) * 1000) = 500 := by
    unfold roundHalfExpand
    norm_num [Int.floor_eq_iff]
  have hfmt : formatPrice (1 / 2 : ℚ) = "₹" ++ String.mk ['0', '.', '5'] := by
    unfold formatPrice toLocaleStringEnIN
    rw [if_neg (by norm_num), h1]
    rfl
  rw [hfmt]
  have h : cleanedPrice ("₹" ++ String.mk ['0', '.', '5']) = ['0', '5'] := by decide
  have h2 : digitsToNat ['0', '5'] = 5 := by decide
  rw [extractPrice_eq_ite, h]
  simp [h2]
  norm_num

/-- Claim C2 (amended): the format/extract round trip holds numerically for
every whole number: for all naturals `n`, `extractPrice (formatPrice n) = n`
(the currency prefix and the Indian thousands grouping normalize away). -/
theorem extractPrice_formatPrice_natCast :
    ∀ n : ℕ, extractPrice (formatPrice (n : ℚ)) = (n : ℚ) := by
  intro n
  rw [formatPrice_natCast, extractPrice_format_nat]

/-- Claim C3 counterexample: the tolerance inside `validateTotal` is not
caller-supplied.  At displayed = calculated = 1120 against expected = 1000,
the spec's `compareTotal` at the 15 percent call-site rate accepts
(120 <= 150) while the component, with its hardcoded 0.1, rejects
(120 > 100): no caller can obtain the 15 percent behavior through it. -/
theorem validateTotal_rate_hardcoded_cex :
    (validateTotal 1120 1120 1000).isDisplayedCorrect = false ∧
    (compareTotalSpec 1120 1120 1000 (15 / 100)).isDisplayedCorrect = true := by
  constructor
  · show decide (|(1120 : ℚ) - 1000| ≤ 1000 * (1 / 10)) = false
    rw [decide_eq_false_iff_not]
    norm_num
  · show decide (|(1120 : ℚ) - 1000| ≤ 1000 * (15 / 100)) = true
    rw [decide_eq_true_eq]
    norm_num

/-- Claim C3 (amended): `validateTotal` implements the per-side comparison
`|displayed - expected| <= expected * rate` with the rate hardcoded to 0.1
inside the component — it coincides with the spec's `compareTotal` contract
applied at rate 1/10 — and with that rate 1080 against expected 1000 is
within tolerance while 1200 is not. -/
theorem validateTotal_fixed_rate :
    (∀ displayed calculated expected : ℚ,
      validateTotal displayed calculated expected =
        compareTotalSpec displayed calculated expected (1 / 10)) ∧
    (validateTotal 1080 1080 1000).isDisplayedCorrect = true ∧
    (validateTotal 1200 1200 1000).isDisplayedCorrect = false := by
  refine ⟨fun d c e => rfl, ?_, ?_⟩
  · show decide (|(1080 : ℚ) - 1000| ≤ 1000 * (1 / 10)) = true
    rw [decide_eq_true_eq]
    norm_num
  · show decide (|(1200 : ℚ) - 1000| ≤ 1000 * (1 / 10)) = false
    rw [decide_eq_false_iff_not]
    norm_num

/-- Claim C6: the sort validator flags only strict descents — its report is
sorted exactly when adjacent prices never strictly decrease, so every
non-decreasing sequence (ties, empty and single-item sequences included)
yields `isCorrectlySorted = true` and an empty violation list. -/
theorem generateSortViolationReport_sorted_iff :
    ∀ products : List ProductItem,
      ((generateSortViolationReport products).isCorrectlySorted = true ↔
        List.Chain' (fun a b => a.price ≤ b.price) products) ∧
      (List.Chain' (fun a b => a.price ≤ b.price) products →
        (generateSortViolationReport products).isCorrectlySorted = true ∧
        (generateSortViolationReport products).violations = []) := by
  intro products
  have hs : (generateSortViolationReport products).isCorrectlySorted
      = ((sortViolationsFrom 0 products).length == 0) := rfl
  have hv : (generateSortViolationReport products).violations
      = sortViolationsFrom 0 products := rfl
  constructor
  · rw [hs, ← sortViolationsFrom_nil_iff products 0]
    simp [List.length_eq_zero]
  · intro hchain
    have hnil : sortViolationsFrom 0 products = [] :=
      (sortViolationsFrom_nil_iff products 0).mpr hchain
    rw [hs, hv, hnil]
    simp

/-- Claim C7: every violation of the report comes from one adjacent pair of
the original sequence — membership is fully determined by the pair at
positions i and i+1, so a dip can flag several adjacent pairs and the
baseline never resets — violations are listed with strictly increasing
1-based display positions, and on prices [100, 50, 200] the report holds
exactly one violation, at position 2, with current price 50 and previous
price 100. -/
theorem generateSortViolationReport_adjacent_pairs :
    ∀ products : List ProductItem,
      (∀ v, v ∈ (generateSortViolationReport products).violations ↔
        ∃ i, i + 1 < products.length ∧
          (products.getD (i + 1) defaultItem).price < (products.getD i defaultItem).price ∧
          v = { position := i + 2
                productName := (products.getD (i + 1) defaultItem).name
                productPrice := (products.getD (i + 1) defaultItem).price
                previousProductName := (products.getD i defaultItem).name
                previousProductPrice := (products.getD i defaultItem).price }) ∧
      List.Pairwise (fun u v => u.position < v.position)
        (generateSortViolationReport products).violations ∧
      generateSortViolationReport
          [{ name := "A", price := 100 }, { name := "B", price := 50 },
           { name := "C", price := 200 }] =
        { totalProducts := 3
          violationsFound := 1
          isCorrectlySorted := false
          violations := [{ position := 2, productName := "B", productPrice := 50,
                           previousProductName := "A", previousProductPrice := 100 }] } := by
  intro products
  refine ⟨fun v => ?_, sortViolationsFrom_pairwise products 0, ?_⟩
  · have h := sortViolationsFrom_mem_iff products 0 v
    simpa using h
  · simp only [generateSortViolationReport, sortViolationsFrom]
    norm_num

/-- Claim C8: invariants of every produced report — `isCorrectlySorted` holds
exactly when the violation list is empty, `totalProducts` is the input
length, `violationsFound` counts the violations, and every recorded
violation has display position at least 2 and a current price strictly below
the previous price. -/
theorem generateSortViolationReport_invariants :
    ∀ products : List ProductItem,
      ((generateSortViolationReport products).isCorrectlySorted = true ↔
        (generateSortViolationReport products).violations = []) ∧
      (generateSortViolationReport products).totalProducts = products.length ∧
      (generateSortViolationReport products).violationsFound =
        (generateSortViolationReport products).violations.length ∧
      ∀ v ∈ (generateSortViolationReport products).violations,
        2 ≤ v.position ∧ v.productPrice < v.previousProductPrice := by
  intro products
  refine ⟨?_, rfl, rfl, ?_⟩
  · show ((sortViolationsFrom 0 products).length == 0) = true ↔
      (generateSortViolationReport products).violations = []
    simp [List.length_eq_zero]
    rfl
  · intro v hv
    obtain ⟨h1, h2⟩ := sortViolationsFrom_strict products 0 v hv
    exact ⟨by omega, h1⟩

/-- Claim C4: cart reconciliation matches each expected item by
case-insensitive bidirectional 20-character-prefix substring matching — the
boolean predicate coincides with that criterion — the candidate taken is the
first cart item (in order) satisfying it, and when no cart item satisfies it
the entry is a NOT_FOUND mismatch and the overall `passed` is false. -/
theorem validateCartContents_matching :
    ∀ expectedProducts cartItems : List ProductItem,
      (∀ item e : ProductItem, nameMatches item e = true ↔ nameMatchesSpec item e) ∧
      (∀ e ∈ expectedProducts, ∀ (pre : List ProductItem) (a : ProductItem)
          (post : List ProductItem),
        cartItems = pre ++ a :: post → nameMatches a e = true →
        (∀ b ∈ pre, nameMatches b e = false) →
        ∃ entry ∈ (validateCartContents expectedProducts cartItems).«matches» ++
            (validateCartContents expectedProducts cartItems).mismatches,
          entry.expected = e ∧ entry.actual = some a) ∧
      (∀ e ∈ expectedProducts, (∀ b ∈ cartItems, nameMatches b e = false) →
        { expected := e, actual := none, status := MatchStatus.NOT_FOUND } ∈
          (validateCartContents expectedProducts cartItems).mismatches ∧
        (validateCartContents expectedProducts cartItems).passed = false) := by
  intro es cartItems
  refine ⟨nameMatches_iff_spec, ?_, ?_⟩
  · intro e he pre a post hsplit ha hpre
    refine ⟨matchEntryFor cartItems e, ?_, matchEntryFor_expected cartItems e, ?_⟩
    · by_cases h : (matchEntryFor cartItems e).status = MatchStatus.MATCH
      · exact List.mem_append.mpr (Or.inl (mem_matches_of_MATCH es cartItems e he h))
      · exact List.mem_append.mpr (Or.inr (mem_mismatches_of_not_MATCH es cartItems e he h))
    · rw [matchEntryFor_actual, hsplit]
      exact find?_of_first _ pre a post hpre ha
  · intro e he hnone
    have hfind : cartItems.find? (fun item => nameMatches item e) = none :=
      List.find?_eq_none.mpr fun b hb => by simp [hnone b hb]
    have hent := matchEntryFor_none cartItems e hfind
    have hstat : (matchEntryFor cartItems e).status ≠ MatchStatus.MATCH := by
      rw [hent]
      simp
    constructor
    · rw [← hent]
      exact mem_mismatches_of_not_MATCH es cartItems e he hstat
    · exact passed_false_of_not_MATCH es cartItems e he hstat

/-- Claim C5: for a matched candidate the verdict is MATCH exactly when the
absolute price difference is below 100 or the expected price is 0 (an
expected price of 0 always yields MATCH); otherwise it is PRICE_MISMATCH and
the overall `passed` becomes false; items are judged independently and
`passed` holds exactly when every expected item's entry resolved to MATCH. -/
theorem validateCartContents_price_verdicts :
    ∀ expectedProducts cartItems : List ProductItem,
      (∀ e ∈ expectedProducts, ∀ m : ProductItem,
        cartItems.find? (fun item => nameMatches item e) = some m →
        ((|m.price - e.price| < 100 ∨ e.price = 0 →
            { expected := e, actual := some m, status := MatchStatus.MATCH } ∈
              (validateCartContents expectedProducts cartItems).«matches») ∧
          (¬|m.price - e.price| < 100 → e.price ≠ 0 →
            { expected := e, actual := some m, status := MatchStatus.PRICE_MISMATCH } ∈
              (validateCartContents expectedProducts cartItems).mismatches ∧
            (validateCartContents expectedProducts cartItems).passed = false) ∧
          (e.price = 0 →
            { expected := e, actual := some m, status := MatchStatus.MATCH } ∈
              (validateCartContents expectedProducts cartItems).«matches»))) ∧
      ((validateCartContents expectedProducts cartItems).passed = true ↔
        ∀ e ∈ expectedProducts, (matchEntryFor cartItems e).status = MatchStatus.MATCH) := by
  intro es cartItems
  constructor
  · intro e he m hfind
    have hent := matchEntryFor_some cartItems e m hfind
    refine ⟨?_, ?_, ?_⟩
    · intro hok
      rw [if_pos hok] at hent
      have := mem_matches_of_MATCH es cartItems e he (by rw [hent])
      rwa [hent] at this
    · intro hfar hnz
      have hno : ¬(|m.price - e.price| < 100 ∨ e.price = 0) := by
        rintro (h | h)
        · exact hfar h
        · exact hnz h
      rw [if_neg hno] at hent
      have hstat : (matchEntryFor cartItems e).status ≠ MatchStatus.MATCH := by
        rw [hent]
        simp
      constructor
      · have := mem_mismatches_of_not_MATCH es cartItems e he hstat
        rwa [hent] at this
      · exact passed_false_of_not_MATCH es cartItems e he hstat
    · intro hz
      rw [if_pos (Or.inr hz)] at hent
      have := mem_matches_of_MATCH es cartItems e he (by rw [hent])
      rwa [hent] at this
  · rw [validateCartContents_eq]
    show (es.all fun e => (matchEntryFor cartItems e).status == MatchStatus.MATCH) = true ↔ _
    rw [List.all_eq_true]
    constructor
    · intro h e he
      simpa using h e he
    · intro h e he
      simp [h e he]
